import Mathlib

/-!
# Verification of `refactor_imports.py` (Luminara-Engine)

Shallow embedding of `src/crates/luminara_editor/src/refactor_imports.py`.

The script holds a fixed table `MAPPINGS` of regex patterns of the very
restricted shape "literal followed by `\b`" (every literal ends in a word
character), applies them in declaration order with `re.sub` to a file's
content, writes the file back only when the content changed (printing
`Updated <path>`), and walks a directory tree processing `.rs` files,
skipping `lib.rs` only when it sits directly in the root directory.

File contents are modelled as `List Char`. For patterns of the shape
`lit\b` with `lit` ending in a word character, `re.sub` replaces every
leftmost non-overlapping occurrence of `lit` whose following character is
not a word character (or which sits at the end of the string); `subLit`
below implements exactly that scan. Word characters are modelled at the
ASCII level (`[A-Za-z0-9_]`), which covers every character appearing in
the table and in the spec's scenarios.
-/

namespace Luminara

/-- ASCII word character, the class `\w` restricted to ASCII: letters,
digits and underscore. -/
def isWordChar (c : Char) : Bool := c.isAlphanum || c == '_'

/-- Boolean "is a list-prefix of": `pfx t s` is `true` iff `t` is an
initial segment of `s`. -/
def pfx : List Char → List Char → Bool
  | [], _ => true
  | _ :: _, [] => false
  | a :: as, b :: bs => (a == b) && pfx as bs

/-- The word-boundary test `\b` placed after a literal that ends in a word
character: it holds at the end of input, or when the next character is not
a word character. -/
def boundaryOk : List Char → Bool
  | [] => true
  | c :: _ => !isWordChar c

/-- `headMatch tok s`: the pattern `tok\b` matches at the start of `s`
(for a nonempty literal `tok` ending in a word character). -/
def headMatch (tok s : List Char) : Bool :=
  !tok.isEmpty && pfx tok s && boundaryOk (s.drop tok.length)

/-- Fuelled left-to-right scan implementing `re.sub` for a pattern `tok\b`
(literal `tok` ending in a word character) and a literal replacement `rep`:
at a match emit `rep` and resume after the matched literal, otherwise copy
one character. Every recursive call consumes at least one character of the
input (a match consumes `tok.length ≥ 1` characters, since `headMatch`
fails for an empty literal), so fuel `s.length` is always enough. -/
def subLitF (tok rep : List Char) : Nat → List Char → List Char
  | 0, s => s
  | _ + 1, [] => []
  | f + 1, c :: rest =>
    if headMatch tok (c :: rest) then
      rep ++ subLitF tok rep f ((c :: rest).drop tok.length)
    else
      c :: subLitF tok rep f rest

/-- `re.sub(tok + r"\b", rep, s)` for a literal `tok` ending in a word
character. -/
def subLit (tok rep : List Char) (s : List Char) : List Char :=
  subLitF tok rep s.length s

/-- `hasMatch tok s`: the pattern `tok\b` matches somewhere in `s`. -/
def hasMatch (tok : List Char) : List Char → Bool
  | [] => false
  | c :: rest => headMatch tok (c :: rest) || hasMatch tok rest

/-- The `MAPPINGS` table of the script, in declaration order: each entry is
the literal part of a pattern `literal\b` together with its replacement. -/
def MAPPINGS : List (String × String) :=
  [ ("crate::app", "crate::core::app"),
    ("crate::window", "crate::core::window"),
    ("crate::preferences", "crate::core::preferences"),
    ("crate::commands", "crate::core::commands"),
    ("crate::input", "crate::core::input"),
    ("crate::settings", "crate::core::settings"),
    ("crate::viewport", "crate::core::viewport"),
    ("crate::engine", "crate::services::engine_bridge"),
    ("crate::backend_ai", "crate::services::ai_agent"),
    ("crate::asset_source", "crate::services::asset_server"),
    ("crate::theme", "crate::ui::theme"),
    ("crate::activity_bar", "crate::ui::layouts::activity_bar"),
    ("crate::resizable_panel", "crate::ui::layouts::resizable_panel"),
    ("crate::director", "crate::features::director"),
    ("crate::logic_graph", "crate::features::logic_graph"),
    ("crate::assetvault", "crate::features::asset_vault"),
    ("crate::extension", "crate::features::extension"),
    ("crate::account", "crate::features::account"),
    ("crate::scenebuilder", "crate::features::scene_builder"),
    ("crate::global_search", "crate::features::global_search") ]

/-- One iteration of the `for pattern, replacement in MAPPINGS.items()`
loop body: `content = re.sub(pattern, replacement, content)`. -/
def applyMap (s : List Char) (m : String × String) : List Char :=
  subLit m.1.toList m.2.toList s

/-- The whole substitution loop of `process_file`, on `List Char`. -/
def transformL (s : List Char) : List Char :=
  MAPPINGS.foldl applyMap s

/-- The content transformation performed by `process_file`. -/
def transform (s : String) : String :=
  String.mk (transformL s.toList)

/-! ### Separation conditions between search literals and replacement texts

`sepA t rep`: no nonempty suffix of `rep` is prefix-comparable with `t`
(so no occurrence of `t` can start inside an inserted copy of `rep`).
`sepB t rep`: no nonempty suffix of `t` is prefix-comparable with `rep`
(so no occurrence of `t` can run into an inserted copy of `rep`). -/

def sepA (t rep : List Char) : Bool :=
  (List.range rep.length).all fun i => !pfx t (rep.drop i) && !pfx (rep.drop i) t

def sepB (t rep : List Char) : Bool :=
  (List.range t.length).all fun i => !pfx (t.drop i) rep && !pfx rep (t.drop i)

/-- The replacement text starts with a word character. -/
def wordHeadRep (m : String × String) : Bool :=
  match m.2.toList with
  | [] => false
  | c :: _ => isWordChar c

/-- `tok` cannot overlap itself: no nonempty proper suffix of `tok` is a
prefix of `tok`. -/
def noOverlap (tok : List Char) : Bool :=
  (List.range tok.length).all fun p => decide (p = 0) || !pfx (tok.drop p) tok

/-! ### Spec-side formulation of `re.sub`

The spec describes one pass as: "globally substitute every non-overlapping
match of pattern with replacement across the whole content", applying the
pairs in table order. `findMatch` returns the index of the leftmost
boundary-anchored match; `specSub` repeatedly rewrites at the leftmost
match and resumes after it. -/

def findMatch (tok : List Char) : List Char → Option Nat
  | [] => none
  | c :: rest =>
    if headMatch tok (c :: rest) then some 0
    else (findMatch tok rest).map (· + 1)

def specSubF (tok rep : List Char) : Nat → List Char → List Char
  | 0, s => s
  | f + 1, s =>
    match findMatch tok s with
    | none => s
    | some i => s.take i ++ rep ++ specSubF tok rep f (s.drop (i + tok.length))

def specSub (tok rep : List Char) (s : List Char) : List Char :=
  specSubF tok rep s.length s

def applySpecMap (s : List Char) (m : String × String) : List Char :=
  specSub m.1.toList m.2.toList s

def specTransformL (s : List Char) : List Char :=
  MAPPINGS.foldl applySpecMap s

/-- The spec's description of the whole per-file transform: the
left-to-right fold, in table order, of leftmost-match global
substitution. -/
def specTransform (s : String) : String :=
  String.mk (specTransformL s.toList)

/-- `containsSub p s`: `p` occurs as a contiguous substring of `s`. -/
def containsSub (p : List Char) : List Char → Bool
  | [] => p.isEmpty
  | c :: rest => pfx p (c :: rest) || containsSub p rest

/-! ### The per-file read/transform/write step and the directory walk -/

/-- Outcome of `process_file` on one file: the content the file holds
afterwards, whether a write happened, and the lines printed. -/
structure ProcResult where
  newContent : String
  wrote : Bool
  output : List String
  deriving DecidableEq

/-- `process_file`: read the content, apply the substitution loop, and
write back plus print `Updated <path>` exactly when the content changed. -/
def process_file (filepath content : String) : ProcResult :=
  let c := transform content
  if c ≠ content then ⟨c, true, ["Updated " ++ filepath]⟩
  else ⟨content, false, []⟩

/-- The hard-coded root directory of the walk in `main`. -/
def src_dir : String := "c:\\dev\\Luminara-Engine\\crates\\luminara_editor\\src"

/-- Python's `str.endswith`, on the character level: `s` ends with `post`
iff the reverse of `post` is an initial segment of the reverse of `s`. -/
def endsWithStr (s post : String) : Bool :=
  pfx post.toList.reverse s.toList.reverse

/-- The filter applied by `main` to a file with name `fname` in directory
`root`: process it iff its name ends in `.rs`, except `lib.rs` directly in
the root directory. -/
def includeFile (root fname : String) : Bool :=
  endsWithStr fname ".rs" && !(fname == "lib.rs" && root == src_dir)

/-- The files (as `(directory, name)` pairs) that the walk processes. -/
def walkProcessed (files : List (String × String)) : List (String × String) :=
  files.filter fun p => includeFile p.1 p.2

/-- One directory entry as seen by the walk: a readable and writable file
with its content, or a file whose read or write raises an exception with
some message (non-existent path, permission denied, decode error, disk
full — the distinction does not matter to the loop). -/
inductive Entry
  | ok (path content : String)
  | err (path msg : String)
  deriving DecidableEq

/-- The processing loop of `main` over the already-filtered file list,
with Python's uncaught-exception semantics: the first raising file aborts
the loop. Returns the writes performed (path and new content), the
notification lines printed, and the error that aborted the run, if any. -/
def runWalk : List Entry → List (String × String) × List String × Option String
  | [] => ([], [], none)
  | .ok p c :: rest =>
    let r := process_file p c
    let w := runWalk rest
    ((if r.wrote then [(p, r.newContent)] else []) ++ w.1, r.output ++ w.2.1, w.2.2)
  | .err _ msg :: _ => ([], [], some msg)

end Luminara

namespace Luminara

/-! ## Basic lemmas about `pfx`, `headMatch` and `subLit` -/

theorem pfx_nil_left (s : List Char) : pfx [] s = true := rfl

theorem pfx_append_drop : ∀ (t s : List Char), pfx t s = true → s = t ++ s.drop t.length := by
  intro t
  induction t with
  | nil => intro s _; simp
  | cons a as ih =>
    intro s h
    cases s with
    | nil => simp [pfx] at h
    | cons b bs =>
      simp only [pfx, Bool.and_eq_true, beq_iff_eq] at h
      obtain ⟨rfl, h2⟩ := h
      simpa using ih bs h2

theorem pfx_append_self : ∀ (t u : List Char), pfx t (t ++ u) = true := by
  intro t
  induction t with
  | nil => intro u; rfl
  | cons a as ih => intro u; simp [pfx, ih]

theorem pfx_length_le : ∀ (t s : List Char), pfx t s = true → t.length ≤ s.length := by
  intro t
  induction t with
  | nil => intro s _; simp
  | cons a as ih =>
    intro s h
    cases s with
    | nil => simp [pfx] at h
    | cons b bs =>
      simp only [pfx, Bool.and_eq_true] at h
      simpa using ih bs h.2

/-- A prefix of an appended list is a prefix of the first part, or extends it. -/
theorem pfx_append_cases : ∀ (x w y : List Char),
    pfx w (x ++ y) = true → pfx w x = true ∨ pfx x w = true := by
  intro x
  induction x with
  | nil => intro w y _; right; rfl
  | cons a as ih =>
    intro w y h
    cases w with
    | nil => left; rfl
    | cons b bs =>
      simp only [List.cons_append, pfx, Bool.and_eq_true, beq_iff_eq] at h
      obtain ⟨rfl, h2⟩ := h
      rcases ih bs y h2 with h3 | h3
      · left; simp [pfx, h3]
      · right; simp [pfx, h3]

theorem headMatch_tok_ne_nil {tok s : List Char} (h : headMatch tok s = true) : tok ≠ [] := by
  intro hnil
  rw [hnil] at h
  simp [headMatch] at h

theorem headMatch_pfx {tok s : List Char} (h : headMatch tok s = true) : pfx tok s = true := by
  simp only [headMatch, Bool.and_eq_true] at h
  exact h.1.2

theorem headMatch_boundary {tok s : List Char} (h : headMatch tok s = true) :
    boundaryOk (s.drop tok.length) = true := by
  simp only [headMatch, Bool.and_eq_true] at h
  exact h.2

theorem subLitF_nil (tok rep : List Char) : ∀ f, subLitF tok rep f [] = [] := by
  intro f; cases f <;> rfl

theorem subLitF_fuel (tok rep : List Char) :
    ∀ (f f' : Nat) (s : List Char), s.length ≤ f → s.length ≤ f' →
      subLitF tok rep f s = subLitF tok rep f' s := by
  intro f
  induction f with
  | zero =>
    intro f' s hf _
    have : s = [] := List.length_eq_zero.mp (Nat.le_zero.mp hf)
    subst this
    simp [subLitF, subLitF_nil]
  | succ f ih =>
    intro f' s hf hf'
    cases s with
    | nil => simp [subLitF_nil]
    | cons c rest =>
      cases f' with
      | zero => simp at hf'
      | succ f'' =>
        by_cases h : headMatch tok (c :: rest) = true
        · have htok : 0 < tok.length :=
            List.length_pos.mpr (headMatch_tok_ne_nil h)
          simp only [subLitF, h, if_true]
          have hlen : ((c :: rest).drop tok.length).length ≤ rest.length := by
            simp only [List.length_drop, List.length_cons]
            omega
          rw [ih f'' ((c :: rest).drop tok.length)
            (by simp only [List.length_cons] at hf; omega)
            (by simp only [List.length_cons] at hf'; omega)]
        · rw [Bool.not_eq_true] at h
          simp only [subLitF, h, Bool.false_eq_true, if_false]
          rw [ih f'' rest
            (by simp only [List.length_cons] at hf; omega)
            (by simp only [List.length_cons] at hf'; omega)]

theorem subLit_nil (tok rep : List Char) : subLit tok rep [] = [] := rfl

theorem subLit_cons_match {tok : List Char} (rep : List Char) {c : Char} {rest : List Char}
    (h : headMatch tok (c :: rest) = true) :
    subLit tok rep (c :: rest) = rep ++ subLit tok rep ((c :: rest).drop tok.length) := by
  have htok : 0 < tok.length := List.length_pos.mpr (headMatch_tok_ne_nil h)
  simp only [subLit, List.length_cons, subLitF, h, if_true]
  congr 1
  exact subLitF_fuel tok rep rest.length ((c :: rest).drop tok.length).length _
    (by simp only [List.length_drop, List.length_cons]; omega) (le_refl _)

theorem subLit_cons_nomatch {tok : List Char} (rep : List Char) {c : Char} {rest : List Char}
    (h : headMatch tok (c :: rest) = false) :
    subLit tok rep (c :: rest) = c :: subLit tok rep rest := by
  simp only [subLit, List.length_cons, subLitF, h, Bool.false_eq_true, if_false]

/-! ## Facts about the separation conditions -/

theorem sepA_spec {t rep : List Char} (h : sepA t rep = true) {i : Nat} (hi : i < rep.length) :
    pfx t (rep.drop i) = false ∧ pfx (rep.drop i) t = false := by
  rw [sepA, List.all_eq_true] at h
  have := h i (List.mem_range.mpr hi)
  simp only [Bool.and_eq_true, Bool.not_eq_true'] at this
  exact this

theorem sepB_spec {t rep : List Char} (h : sepB t rep = true) {i : Nat} (hi : i < t.length) :
    pfx (t.drop i) rep = false ∧ pfx rep (t.drop i) = false := by
  rw [sepB, List.all_eq_true] at h
  have := h i (List.mem_range.mpr hi)
  simp only [Bool.and_eq_true, Bool.not_eq_true'] at this
  exact this

/-- If the scan's output starts at a word boundary, so did its input: the
output either starts with a copied character of the input or with the
replacement, whose head is a word character. -/
theorem boundary_transfer {tok rep : List Char} {r0 : Char} {rr : List Char}
    (hrep : rep = r0 :: rr) (hrw : isWordChar r0 = true) (rest : List Char)
    (h : boundaryOk (subLit tok rep rest) = true) : boundaryOk rest = true := by
  cases rest with
  | nil => rfl
  | cons d rest' =>
    by_cases hm : headMatch tok (d :: rest') = true
    · rw [subLit_cons_match rep hm, hrep] at h
      simp only [List.cons_append, boundaryOk, hrw] at h
      exact absurd h (by simp)
    · rw [Bool.not_eq_true] at hm
      rw [subLit_cons_nomatch rep hm] at h
      simpa [boundaryOk] using h

/-- Pullback of a boundary-anchored occurrence at the start of the scan's
output: if a suffix `t.drop k` of a literal `t` is a prefix of
`subLit tok rep s` and the position right after it is a word boundary,
then the same holds of `s` itself — under the separation conditions, such
an occurrence can neither start inside nor run into an inserted
replacement. -/
theorem head_pullback {t tok rep : List Char} {r0 : Char} {rr : List Char}
    (hrep : rep = r0 :: rr) (hrw : isWordChar r0 = true) (hB : sepB t rep = true) :
    ∀ (n : Nat) (s : List Char) (k : Nat), s.length ≤ n → k < t.length →
      pfx (t.drop k) (subLit tok rep s) = true →
      boundaryOk ((subLit tok rep s).drop (t.length - k)) = true →
      pfx (t.drop k) s = true ∧ boundaryOk (s.drop (t.length - k)) = true := by
  intro n
  induction n with
  | zero =>
    intro s k hn hk hp _
    have hs : s = [] := List.length_eq_zero.mp (Nat.le_zero.mp hn)
    subst hs
    rw [subLit_nil] at hp
    have := pfx_length_le _ _ hp
    simp only [List.length_drop, List.length_nil] at this
    omega
  | succ n ih =>
    intro s k hn hk hp hb
    cases s with
    | nil =>
      rw [subLit_nil] at hp
      have := pfx_length_le _ _ hp
      simp only [List.length_drop, List.length_nil] at this
      omega
    | cons c rest =>
      by_cases hm : headMatch tok (c :: rest) = true
      · rw [subLit_cons_match rep hm] at hp
        rcases pfx_append_cases rep (t.drop k) _ hp with h1 | h1
        · exact absurd h1 (by simp [(sepB_spec hB hk).1])
        · exact absurd h1 (by simp [(sepB_spec hB hk).2])
      · rw [Bool.not_eq_true] at hm
        rw [subLit_cons_nomatch rep hm] at hp hb
        have hdk : t.drop k = t[k] :: t.drop (k + 1) := List.drop_eq_getElem_cons hk
        rw [hdk] at hp
        simp only [pfx, Bool.and_eq_true, beq_iff_eq] at hp
        obtain ⟨hck, hp2⟩ := hp
        by_cases hk1 : k + 1 < t.length
        · -- the occurrence continues past `c` into the scan of `rest`
          have hblen : t.length - k = (t.length - (k + 1)) + 1 := by omega
          rw [hblen, List.drop_succ_cons] at hb
          have hrest : rest.length ≤ n := by
            simp only [List.length_cons] at hn; omega
          obtain ⟨hA1, hA2⟩ := ih rest (k + 1) hrest hk1 hp2 hb
          refine ⟨?_, ?_⟩
          · rw [hdk]
            simp [pfx, hck, hA1]
          · rw [hblen, List.drop_succ_cons]
            exact hA2
        · -- `t.drop k` is the single character `t[k] = c`
          have hnil : t.drop (k + 1) = [] := List.drop_eq_nil_iff.mpr (by omega)
          have hsub : t.length - k = 1 := by omega
          rw [hsub, List.drop_one, List.tail_cons] at hb
          refine ⟨?_, ?_⟩
          · rw [hdk, hnil]
            simp [pfx, hck]
          · rw [hsub, List.drop_one, List.tail_cons]
            exact boundary_transfer hrep hrw rest hb

/-! ## No pattern matches the output of the substitution chain -/

theorem hasMatch_tail {t : List Char} {c : Char} {rest : List Char}
    (h : hasMatch t (c :: rest) = false) : hasMatch t rest = false := by
  simp only [hasMatch, Bool.or_eq_false_iff] at h
  exact h.2

theorem hasMatch_drop {t : List Char} :
    ∀ (m : Nat) (s : List Char), hasMatch t s = false → hasMatch t (s.drop m) = false := by
  intro m
  induction m with
  | zero => intro s h; simpa using h
  | succ m ih =>
    intro s h
    cases s with
    | nil => simpa using h
    | cons c rest => rw [List.drop_succ_cons]; exact ih rest (hasMatch_tail h)

theorem hasMatch_append_false {t : List Char} :
    ∀ (x y : List Char),
      (∀ i, i < x.length → headMatch t (x.drop i ++ y) = false) →
      hasMatch t y = false → hasMatch t (x ++ y) = false := by
  intro x
  induction x with
  | nil => intro y _ hy; simpa using hy
  | cons a as ih =>
    intro y hx hy
    simp only [List.cons_append, hasMatch, Bool.or_eq_false_iff]
    refine ⟨?_, ?_⟩
    · have := hx 0 (by simp)
      simpa using this
    · refine ih y (fun i hi => ?_) hy
      have := hx (i + 1) (by simp only [List.length_cons]; omega)
      simpa using this

theorem isEmpty_false_of_ne_nil {t : List Char} (ht : t ≠ []) : t.isEmpty = false := by
  cases t with
  | nil => exact absurd rfl ht
  | cons a as => rfl

/-- Core lemma: under the separation conditions, one pass of the scanner
creates no boundary-anchored occurrence of `t`. Either `t` is the literal
of this very pass (whose occurrences are all consumed), or `s` had no
occurrence of `t` to begin with; in both cases the output has none. -/
theorem no_match_sub {t tok rep : List Char} {r0 : Char} {rr : List Char}
    (ht : t ≠ []) (hrep : rep = r0 :: rr) (hrw : isWordChar r0 = true)
    (hA : sepA t rep = true) (hB : sepB t rep = true) :
    ∀ (n : Nat) (s : List Char), s.length ≤ n →
      (t = tok ∨ hasMatch t s = false) →
      hasMatch t (subLit tok rep s) = false := by
  intro n
  induction n with
  | zero =>
    intro s hn _
    have hs : s = [] := List.length_eq_zero.mp (Nat.le_zero.mp hn)
    subst hs
    rw [subLit_nil]
    rfl
  | succ n ih =>
    intro s hn hyp
    cases s with
    | nil => rw [subLit_nil]; rfl
    | cons c rest =>
      by_cases hm : headMatch tok (c :: rest) = true
      · rw [subLit_cons_match rep hm]
        have htokpos : 0 < tok.length := List.length_pos.mpr (headMatch_tok_ne_nil hm)
        apply hasMatch_append_false
        · intro i hi
          by_contra hcon
          rw [Bool.not_eq_false] at hcon
          have hpfx := headMatch_pfx hcon
          rcases pfx_append_cases (rep.drop i) t _ hpfx with h1 | h1
          · rw [(sepA_spec hA hi).1] at h1
            exact absurd h1 (by simp)
          · rw [(sepA_spec hA hi).2] at h1
            exact absurd h1 (by simp)
        · apply ih ((c :: rest).drop tok.length)
          · simp only [List.length_drop, List.length_cons]
            simp only [List.length_cons] at hn
            omega
          · rcases hyp with h | h
            · exact Or.inl h
            · exact Or.inr (hasMatch_drop tok.length _ h)
      · rw [Bool.not_eq_true] at hm
        rw [subLit_cons_nomatch rep hm]
        simp only [hasMatch, Bool.or_eq_false_iff]
        refine ⟨?_, ?_⟩
        · by_contra hcon
          rw [Bool.not_eq_false] at hcon
          have hpfx := headMatch_pfx hcon
          have hbnd := headMatch_boundary hcon
          rw [← subLit_cons_nomatch rep hm] at hpfx hbnd
          have hk0 : 0 < t.length := List.length_pos.mpr ht
          obtain ⟨hp, hbd⟩ := head_pullback hrep hrw hB (n + 1) (c :: rest) 0 hn hk0
            (by simpa using hpfx) (by simpa using hbnd)
          rw [List.drop_zero] at hp
          rw [Nat.sub_zero] at hbd
          have hhm : headMatch t (c :: rest) = true := by
            simp [headMatch, isEmpty_false_of_ne_nil ht, hp, hbd]
          rcases hyp with rfl | hnm
          · rw [hm] at hhm
            exact absurd hhm (by simp)
          · have : hasMatch t (c :: rest) = true := by
              simp [hasMatch, hhm]
            rw [hnm] at this
            exact absurd this (by simp)
        · apply ih rest
          · simp only [List.length_cons] at hn
            omega
          · rcases hyp with h | h
            · exact Or.inl h
            · exact Or.inr (hasMatch_tail h)

/-! ## The conditions hold for every pair of the `MAPPINGS` table -/

theorem mappings_basic :
    (MAPPINGS.all fun m => !m.1.toList.isEmpty && wordHeadRep m) = true := by decide

theorem mappings_sep :
    (MAPPINGS.all fun m₁ => MAPPINGS.all fun m₂ =>
      sepA m₁.1.toList m₂.2.toList && sepB m₁.1.toList m₂.2.toList) = true := by decide

theorem ne_nil_of_isEmpty_false {t : List Char} (h : t.isEmpty = false) : t ≠ [] := by
  cases t with
  | nil => simp [List.isEmpty] at h
  | cons a as => simp

theorem wordHeadRep_elim {m : String × String} (h : wordHeadRep m = true) :
    ∃ r0 rr, m.2.toList = r0 :: rr ∧ isWordChar r0 = true := by
  cases hrepl : m.2.toList with
  | nil =>
    rw [wordHeadRep, hrepl] at h
    exact absurd h (by simp)
  | cons r0 rr =>
    refine ⟨r0, rr, rfl, ?_⟩
    rw [wordHeadRep, hrepl] at h
    exact h

theorem mappings_basic_mem {m : String × String} (hm : m ∈ MAPPINGS) :
    m.1.toList ≠ [] ∧ wordHeadRep m = true := by
  have h := List.all_eq_true.mp mappings_basic m hm
  simp only [Bool.and_eq_true, Bool.not_eq_true'] at h
  exact ⟨ne_nil_of_isEmpty_false h.1, h.2⟩

theorem mappings_sep_mem {m₁ m₂ : String × String} (h1 : m₁ ∈ MAPPINGS) (h2 : m₂ ∈ MAPPINGS) :
    sepA m₁.1.toList m₂.2.toList = true ∧ sepB m₁.1.toList m₂.2.toList = true := by
  have h := List.all_eq_true.mp (List.all_eq_true.mp mappings_sep m₁ h1) m₂ h2
  simpa only [Bool.and_eq_true] using h

/-! ## Chaining over the table -/

theorem fold_no_match {t : List Char} (ht : t ≠ []) :
    ∀ (ms : List (String × String)) (s : List Char),
      (∀ m ∈ ms, sepA t m.2.toList = true ∧ sepB t m.2.toList = true ∧ wordHeadRep m = true) →
      hasMatch t s = false →
      hasMatch t (ms.foldl applyMap s) = false := by
  intro ms
  induction ms with
  | nil => intro s _ h; simpa using h
  | cons m0 ms ih =>
    intro s hc h
    rw [List.foldl_cons]
    apply ih
    · intro m' hm'
      exact hc m' (List.mem_cons_of_mem _ hm')
    · obtain ⟨hA, hB, hw⟩ := hc m0 (List.mem_cons_self _ _)
      obtain ⟨r0, rr, hrepl, hrw⟩ := wordHeadRep_elim hw
      exact no_match_sub ht hrepl hrw hA hB s.length s (le_refl _) (Or.inr h)

theorem fold_token :
    ∀ (ms : List (String × String)) (s : List Char) (m : String × String),
      m ∈ ms →
      (∀ m₁ ∈ ms, m₁.1.toList ≠ [] ∧ wordHeadRep m₁ = true) →
      (∀ m₁ ∈ ms, ∀ m₂ ∈ ms,
        sepA m₁.1.toList m₂.2.toList = true ∧ sepB m₁.1.toList m₂.2.toList = true) →
      hasMatch m.1.toList (ms.foldl applyMap s) = false := by
  intro ms
  induction ms with
  | nil => intro s m hm; exact absurd hm (List.not_mem_nil m)
  | cons m0 ms ih =>
    intro s m hmem hne hsep
    rw [List.foldl_cons]
    rcases List.mem_cons.mp hmem with rfl | hmem'
    · have hm0 : m ∈ m :: ms := List.mem_cons_self _ _
      apply fold_no_match (hne m hm0).1 ms (applyMap s m)
      · intro m' hm'
        have h1 := hsep m hm0 m' (List.mem_cons_of_mem _ hm')
        exact ⟨h1.1, h1.2, (hne m' (List.mem_cons_of_mem _ hm')).2⟩
      · obtain ⟨hne0, hw0⟩ := hne m hm0
        obtain ⟨hA, hB⟩ := hsep m hm0 m hm0
        obtain ⟨r0, rr, hrepl, hrw⟩ := wordHeadRep_elim hw0
        exact no_match_sub hne0 hrepl hrw hA hB s.length s (le_refl _) (Or.inl rfl)
    · refine ih (applyMap s m0) m hmem' ?_ ?_
      · intro m₁ h₁; exact hne m₁ (List.mem_cons_of_mem _ h₁)
      · intro m₁ h₁ m₂ h₂
        exact hsep m₁ (List.mem_cons_of_mem _ h₁) m₂ (List.mem_cons_of_mem _ h₂)

/-- After running the whole substitution loop, no pattern of the table has
any boundary-anchored occurrence left in the content. -/
theorem transform_no_match {m : String × String} (hm : m ∈ MAPPINGS) (F : List Char) :
    hasMatch m.1.toList (transformL F) = false :=
  fold_token MAPPINGS F m hm (fun m₁ h₁ => mappings_basic_mem h₁)
    (fun m₁ h₁ m₂ h₂ => mappings_sep_mem h₁ h₂)

/-! ## Fixed points of the scanner and of the loop -/

theorem subLit_of_no_match {tok rep : List Char} :
    ∀ (n : Nat) (s : List Char), s.length ≤ n → hasMatch tok s = false →
      subLit tok rep s = s := by
  intro n
  induction n with
  | zero =>
    intro s hn _
    have hs : s = [] := List.length_eq_zero.mp (Nat.le_zero.mp hn)
    subst hs
    exact subLit_nil tok rep
  | succ n ih =>
    intro s hn h
    cases s with
    | nil => exact subLit_nil tok rep
    | cons c rest =>
      have hm : headMatch tok (c :: rest) = false := by
        simp only [hasMatch, Bool.or_eq_false_iff] at h
        exact h.1
      rw [subLit_cons_nomatch rep hm]
      rw [ih rest (by simp only [List.length_cons] at hn; omega) (hasMatch_tail h)]

theorem fold_fixed :
    ∀ (ms : List (String × String)) (s : List Char),
      (∀ m ∈ ms, hasMatch m.1.toList s = false) → ms.foldl applyMap s = s := by
  intro ms
  induction ms with
  | nil => intro s _; rfl
  | cons m0 ms ih =>
    intro s h
    rw [List.foldl_cons]
    have h0 : applyMap s m0 = s :=
      subLit_of_no_match s.length s (le_refl _) (h m0 (List.mem_cons_self _ _))
    rw [h0]
    exact ih s (fun m hm => h m (List.mem_cons_of_mem _ hm))

theorem transformL_idem (F : List Char) : transformL (transformL F) = transformL F :=
  fold_fixed MAPPINGS (transformL F) (fun m hm => transform_no_match hm F)

/-! ## The scanner agrees with the spec's leftmost-match formulation -/

theorem findMatch_some_spec {tok : List Char} :
    ∀ (s : List Char) (i : Nat), findMatch tok s = some i →
      i < s.length ∧ headMatch tok (s.drop i) = true ∧
        ∀ j, j < i → headMatch tok (s.drop j) = false := by
  intro s
  induction s with
  | nil => intro i h; simp [findMatch] at h
  | cons c rest ih =>
    intro i h
    by_cases hm : headMatch tok (c :: rest) = true
    · simp only [findMatch, hm, if_true] at h
      obtain rfl : (0 : Nat) = i := Option.some.inj h
      refine ⟨by simp, by simpa using hm, ?_⟩
      intro j hj
      omega
    · rw [Bool.not_eq_true] at hm
      simp only [findMatch, hm, Bool.false_eq_true, if_false] at h
      cases hf : findMatch tok rest with
      | none => rw [hf] at h; simp at h
      | some j =>
        rw [hf] at h
        simp only [Option.map_some'] at h
        obtain rfl : j + 1 = i := Option.some.inj h
        obtain ⟨h1, h2, h3⟩ := ih j hf
        refine ⟨by simp [Nat.succ_lt_succ h1], by simpa using h2, ?_⟩
        intro j' hj'
        cases j' with
        | zero => simpa using hm
        | succ j'' => rw [List.drop_succ_cons]; exact h3 j'' (by omega)

theorem findMatch_none_spec {tok : List Char} :
    ∀ (s : List Char), findMatch tok s = none → hasMatch tok s = false := by
  intro s
  induction s with
  | nil => intro _; rfl
  | cons c rest ih =>
    intro h
    by_cases hm : headMatch tok (c :: rest) = true
    · simp [findMatch, hm] at h
    · rw [Bool.not_eq_true] at hm
      simp only [findMatch, hm, Bool.false_eq_true, if_false] at h
      have hf : findMatch tok rest = none := by
        cases hf : findMatch tok rest with
        | none => rfl
        | some j => rw [hf] at h; simp at h
      simp [hasMatch, hm, ih hf]

theorem specSubF_nil (tok rep : List Char) : ∀ f, specSubF tok rep f [] = [] := by
  intro f
  cases f with
  | zero => rfl
  | succ f => simp [specSubF, findMatch]

theorem specSubF_fuel (tok rep : List Char) :
    ∀ (f f' : Nat) (s : List Char), s.length ≤ f → s.length ≤ f' →
      specSubF tok rep f s = specSubF tok rep f' s := by
  intro f
  induction f with
  | zero =>
    intro f' s hf _
    have hs : s = [] := List.length_eq_zero.mp (Nat.le_zero.mp hf)
    subst hs
    rw [specSubF_nil, specSubF_nil]
  | succ f ih =>
    intro f' s hf hf'
    cases f' with
    | zero =>
      have hs : s = [] := List.length_eq_zero.mp (Nat.le_zero.mp hf')
      subst hs
      rw [specSubF_nil, specSubF_nil]
    | succ f'' =>
      cases hfm : findMatch tok s with
      | none => simp [specSubF, hfm]
      | some i =>
        obtain ⟨hi, hhm, -⟩ := findMatch_some_spec s i hfm
        have htok : 0 < tok.length := List.length_pos.mpr (headMatch_tok_ne_nil hhm)
        simp only [specSubF, hfm]
        rw [ih f'' (s.drop (i + tok.length))
          (by simp only [List.length_drop]; omega)
          (by simp only [List.length_drop]; omega)]

theorem specSub_none {tok rep s : List Char} (h : findMatch tok s = none) :
    specSub tok rep s = s := by
  cases s with
  | nil => rfl
  | cons c rest => simp [specSub, specSubF, h]

theorem specSub_some {tok rep s : List Char} {i : Nat} (h : findMatch tok s = some i) :
    specSub tok rep s = s.take i ++ rep ++ specSub tok rep (s.drop (i + tok.length)) := by
  obtain ⟨hi, hhm, -⟩ := findMatch_some_spec s i h
  have htok : 0 < tok.length := List.length_pos.mpr (headMatch_tok_ne_nil hhm)
  cases s with
  | nil => simp at hi
  | cons c rest =>
    simp only [specSub, List.length_cons, specSubF, h]
    congr 1
    exact specSubF_fuel tok rep rest.length ((c :: rest).drop (i + tok.length)).length _
      (by simp only [List.length_drop, List.length_cons]; omega) (le_refl _)

theorem subLit_eq_specSub {tok rep : List Char} :
    ∀ (n : Nat) (s : List Char), s.length ≤ n → subLit tok rep s = specSub tok rep s := by
  intro n
  induction n with
  | zero =>
    intro s hn
    have hs : s = [] := List.length_eq_zero.mp (Nat.le_zero.mp hn)
    subst hs
    rfl
  | succ n ih =>
    intro s hn
    cases s with
    | nil => rfl
    | cons c rest =>
      by_cases hm : headMatch tok (c :: rest) = true
      · have htok : 0 < tok.length := List.length_pos.mpr (headMatch_tok_ne_nil hm)
        have hfm : findMatch tok (c :: rest) = some 0 := by simp [findMatch, hm]
        rw [subLit_cons_match rep hm, specSub_some hfm]
        simp only [List.take_zero, List.nil_append, Nat.zero_add]
        congr 1
        apply ih
        simp only [List.length_drop, List.length_cons]
        simp only [List.length_cons] at hn
        omega
      · rw [Bool.not_eq_true] at hm
        rw [subLit_cons_nomatch rep hm]
        have hrest : subLit tok rep rest = specSub tok rep rest :=
          ih rest (by simp only [List.length_cons] at hn; omega)
        cases hf : findMatch tok rest with
        | none =>
          have hfm : findMatch tok (c :: rest) = none := by
            simp [findMatch, hm, hf]
          rw [specSub_none hfm, hrest, specSub_none hf]
        | some j =>
          have hhm := (findMatch_some_spec rest j hf).2.1
          have htok : 0 < tok.length := List.length_pos.mpr (headMatch_tok_ne_nil hhm)
          have hfm : findMatch tok (c :: rest) = some (j + 1) := by
            simp [findMatch, hm, hf]
          rw [specSub_some hfm, hrest, specSub_some hf]
          have harith : j + 1 + tok.length = (j + tok.length) + 1 := by omega
          rw [harith, List.drop_succ_cons, List.take_succ_cons]
          simp

theorem applyMap_eq_spec (s : List Char) (m : String × String) :
    applyMap s m = applySpecMap s m :=
  subLit_eq_specSub s.length s (le_refl _)

theorem fold_applyMap_eq_spec :
    ∀ (ms : List (String × String)) (s : List Char),
      ms.foldl applyMap s = ms.foldl applySpecMap s := by
  intro ms
  induction ms with
  | nil => intro s; rfl
  | cons m0 ms ih =>
    intro s
    rw [List.foldl_cons, List.foldl_cons, applyMap_eq_spec]
    exact ih (applySpecMap s m0)

/-! ## A matched occurrence followed by a word character is skipped -/

theorem noOverlap_spec {tok : List Char} (h : noOverlap tok = true) {p : Nat}
    (hp : 0 < p) (hlt : p < tok.length) : pfx (tok.drop p) tok = false := by
  rw [noOverlap, List.all_eq_true] at h
  have := h p (List.mem_range.mpr hlt)
  simp only [Bool.or_eq_true, decide_eq_true_eq, Bool.not_eq_true'] at this
  rcases this with h0 | h0
  · omega
  · exact h0

theorem subLit_skip_aux {tok rep : List Char} (hno : noOverlap tok = true)
    {c : Char} (hc : isWordChar c = true) (v : List Char) :
    ∀ (d k : Nat), k + d = tok.length →
      subLit tok rep (tok.drop k ++ c :: v) =
        tok.drop k ++ subLit tok rep (c :: v) := by
  intro d
  induction d with
  | zero =>
    intro k hk
    have hnil : tok.drop k = [] := List.drop_eq_nil_iff.mpr (by omega)
    rw [hnil]
    simp
  | succ d ih =>
    intro k hk
    have hklt : k < tok.length := by omega
    have hdk : tok.drop k = tok[k] :: tok.drop (k + 1) := List.drop_eq_getElem_cons hklt
    have hm : headMatch tok (tok.drop k ++ c :: v) = false := by
      by_contra hcon
      rw [Bool.not_eq_false] at hcon
      have hpfx := headMatch_pfx hcon
      have hbnd := headMatch_boundary hcon
      by_cases hk0 : k = 0
      · subst hk0
        rw [List.drop_zero, List.drop_left] at hbnd
        simp [boundaryOk, hc] at hbnd
      · rcases pfx_append_cases (tok.drop k) tok (c :: v) hpfx with h1 | h1
        · have := pfx_length_le _ _ h1
          simp only [List.length_drop] at this
          omega
        · rw [noOverlap_spec hno (by omega) hklt] at h1
          exact absurd h1 (by simp)
    have hm' : headMatch tok (tok[k] :: (tok.drop (k + 1) ++ c :: v)) = false := by
      rw [← List.cons_append, ← hdk]
      exact hm
    calc subLit tok rep (tok.drop k ++ c :: v)
        = subLit tok rep (tok[k] :: (tok.drop (k + 1) ++ c :: v)) := by
          rw [hdk, List.cons_append]
      _ = tok[k] :: subLit tok rep (tok.drop (k + 1) ++ c :: v) :=
          subLit_cons_nomatch rep hm'
      _ = tok[k] :: (tok.drop (k + 1) ++ subLit tok rep (c :: v)) := by
          rw [ih (k + 1) (by omega)]
      _ = tok.drop k ++ subLit tok rep (c :: v) := by
          rw [hdk, List.cons_append]

theorem subLit_skip_self {tok rep : List Char} (hno : noOverlap tok = true)
    {c : Char} (hc : isWordChar c = true) (v : List Char) :
    subLit tok rep (tok ++ c :: v) = tok ++ subLit tok rep (c :: v) := by
  have h := @subLit_skip_aux tok rep hno c hc v tok.length 0 (by omega)
  simpa using h

theorem mappings_no_overlap :
    (MAPPINGS.all fun m => noOverlap m.1.toList) = true := by decide

/-! ## Substring containment and the frame property -/

theorem pfx_trans :
    ∀ (q t x : List Char), pfx q t = true → pfx t x = true → pfx q x = true := by
  intro q
  induction q with
  | nil => intro t x _ _; rfl
  | cons a as ih =>
    intro t x h1 h2
    cases t with
    | nil => simp [pfx] at h1
    | cons b bs =>
      cases x with
      | nil => simp [pfx] at h2
      | cons d ds =>
        simp only [pfx, Bool.and_eq_true, beq_iff_eq] at h1 h2 ⊢
        obtain ⟨rfl, h1'⟩ := h1
        obtain ⟨rfl, h2'⟩ := h2
        exact ⟨rfl, ih bs ds h1' h2'⟩

theorem containsSub_of_hasMatch {q tok : List Char} (hq : pfx q tok = true) :
    ∀ (s : List Char), hasMatch tok s = true → containsSub q s = true := by
  intro s
  induction s with
  | nil => intro h; simp [hasMatch] at h
  | cons c rest ih =>
    intro h
    simp only [hasMatch, Bool.or_eq_true] at h
    rcases h with h | h
    · have := pfx_trans q tok _ hq (headMatch_pfx h)
      simp [containsSub, this]
    · simp [containsSub, ih h]

theorem crate_pfx_mappings :
    (MAPPINGS.all fun m => pfx ("crate::".toList) m.1.toList) = true := by decide

theorem no_crate_no_match {F : List Char}
    (h : containsSub ("crate::".toList) F = false) :
    ∀ m ∈ MAPPINGS, hasMatch m.1.toList F = false := by
  intro m hm
  by_contra hcon
  rw [Bool.not_eq_false] at hcon
  have hq := List.all_eq_true.mp crate_pfx_mappings m hm
  rw [containsSub_of_hasMatch hq F hcon] at h
  exact absurd h (by simp)

/-! ## The write-back step and the walk filter -/

theorem process_file_eq_changed {fp content : String} (h : transform content ≠ content) :
    process_file fp content = ⟨transform content, true, ["Updated " ++ fp]⟩ := by
  simp only [process_file]
  rw [if_pos h]

theorem process_file_eq_unchanged {fp content : String} (h : transform content = content) :
    process_file fp content = ⟨content, false, []⟩ := by
  simp only [process_file]
  rw [if_neg (by simp [h])]

theorem transform_fixed_of_no_match {F : String}
    (h : ∀ m ∈ MAPPINGS, hasMatch m.1.toList F.toList = false) : transform F = F := by
  simp only [transform, transformL]
  rw [fold_fixed MAPPINGS F.toList h]
  rfl

theorem mk_toList (l : List Char) : (String.mk l).toList = l := rfl

theorem includeFile_iff (root fname : String) :
    includeFile root fname = true ↔
      endsWithStr fname ".rs" = true ∧ ¬(fname = "lib.rs" ∧ root = src_dir) := by
  simp only [includeFile, Bool.and_eq_true, Bool.not_eq_true', Bool.and_eq_false_iff,
    beq_iff_eq, beq_eq_false_iff_ne, ne_eq]
  tauto

end Luminara

namespace Luminara

/-! ## The claims -/

/-- C1: the per-file transform is idempotent — for every input file
content `F`, applying the full sequence of mapping-table substitutions
twice yields the same text as applying it once; no pattern in the table
matches text introduced by any replacement. -/
theorem C1_transform_idempotent (F : String) : transform (transform F) = transform F := by
  simp only [transform]
  rw [mk_toList, transformL_idem]

/-- C2: the transform applies the pairs in table-declaration order, each
performing a global substitution of every non-overlapping leftmost match
over the content as already transformed by the earlier pairs: it equals
the left-to-right fold, in table order, of leftmost-match repeated
substitution (`specTransform`). -/
theorem C2_transform_is_ordered_fold (F : String) : transform F = specTransform F := by
  simp only [transform, specTransform, transformL, specTransformL]
  rw [fold_applyMap_eq_spec]

/-- C3: word-boundary correctness — for every mapped search token, an
occurrence of the token immediately followed by an identifier character is
never rewritten: the matcher does not fire at such a position, and the
scanner copies such an occurrence verbatim. -/
theorem C3_word_boundary (m : String × String) (hm : m ∈ MAPPINGS)
    (c : Char) (hc : isWordChar c = true) (u v : List Char) :
    headMatch m.1.toList ((u ++ (m.1.toList ++ c :: v)).drop u.length) = false ∧
    subLit m.1.toList m.2.toList (m.1.toList ++ c :: v) =
      m.1.toList ++ subLit m.1.toList m.2.toList (c :: v) := by
  have hno := List.all_eq_true.mp mappings_no_overlap m hm
  constructor
  · rw [List.drop_left' rfl]
    simp [headMatch, List.drop_left, boundaryOk, hc]
  · exact subLit_skip_self hno hc v

theorem C3_witness :
    headMatch ("crate::app".toList)
        ((("use ".toList) ++ ("crate::app".toList ++ '_' :: "state;".toList)).drop
          ("use ".toList).length) = false ∧
    subLit ("crate::app".toList) ("crate::core::app".toList)
        ("crate::app".toList ++ '_' :: "state;".toList) =
      "crate::app".toList ++
        subLit ("crate::app".toList) ("crate::core::app".toList) ('_' :: "state;".toList) :=
  C3_word_boundary ("crate::app", "crate::core::app") (by decide) '_' (by decide)
    ("use ".toList) ("state;".toList)

set_option maxHeartbeats 2000000 in
/-- C4: concrete scenario — a file containing the line
`use crate::app::Foo;` has that line rewritten to
`use crate::core::app::Foo;`, and a file containing
`use crate::appendix::Bar;` is left unchanged. -/
theorem C4_scenario :
    transform "mod x;\nuse crate::app::Foo;\nfn f() {}\n" =
      "mod x;\nuse crate::core::app::Foo;\nfn f() {}\n" ∧
    transform "mod x;\nuse crate::appendix::Bar;\nfn f() {}\n" =
      "mod x;\nuse crate::appendix::Bar;\nfn f() {}\n" := by
  constructor
  · decide
  · decide

/-- C5: write-iff-changed with notification — the file is overwritten
(with exactly the transformed content) and exactly one line
`Updated <path>` is printed iff the transformed content differs from the
original; otherwise no write happens and nothing is printed. -/
theorem C5_write_iff_changed (fp content : String) :
    ((process_file fp content).wrote = true ↔ transform content ≠ content) ∧
    ((process_file fp content).output = ["Updated " ++ fp] ↔ transform content ≠ content) ∧
    ((process_file fp content).wrote = false ∧ (process_file fp content).output = [] ∧
        (process_file fp content).newContent = content ↔ transform content = content) ∧
    (process_file fp content).newContent = transform content := by
  by_cases h : transform content = content
  · rw [process_file_eq_unchanged h]
    simp [h]
  · rw [process_file_eq_changed h]
    simp [h]

/-- C6: walk filtering with root-only exclusion — the walk processes
exactly the files whose name ends in `.rs`, except `lib.rs` directly in
the root directory; a `lib.rs` in any other directory is processed. -/
theorem C6_walk_filter (files : List (String × String)) (p : String × String)
    (root : String) (hroot : root ≠ src_dir) :
    (p ∈ walkProcessed files ↔
      p ∈ files ∧ endsWithStr p.2 ".rs" = true ∧ ¬(p.2 = "lib.rs" ∧ p.1 = src_dir)) ∧
    includeFile root "lib.rs" = true := by
  constructor
  · rw [walkProcessed, List.mem_filter, includeFile_iff]
  · rw [includeFile_iff]
    exact ⟨by decide, fun hc => hroot hc.2⟩

theorem C6_witness :
    (("sub", "lib.rs") ∈ walkProcessed [(("sub" : String), ("lib.rs" : String))] ↔
      ("sub", "lib.rs") ∈ [(("sub" : String), ("lib.rs" : String))] ∧
        endsWithStr "lib.rs" ".rs" = true ∧
        ¬(("lib.rs" : String) = "lib.rs" ∧ ("sub" : String) = src_dir)) ∧
    includeFile "sub" "lib.rs" = true :=
  C6_walk_filter [("sub", "lib.rs")] ("sub", "lib.rs") "sub" (by decide)

/-- C7: no-op preservation — a file content with no match of any mapped
pattern is left identical, not written back, and produces no output. -/
theorem C7_noop_preserved (fp F : String)
    (h : ∀ m ∈ MAPPINGS, hasMatch m.1.toList F.toList = false) :
    transform F = F ∧ process_file fp F = ⟨F, false, []⟩ := by
  have ht : transform F = F := transform_fixed_of_no_match h
  exact ⟨ht, process_file_eq_unchanged ht⟩

theorem C7_witness :
    transform "" = "" ∧ process_file "a.rs" "" = ⟨"", false, []⟩ :=
  C7_noop_preserved "a.rs" "" (by decide)

/-- C8: error propagation — a read or write failure is not caught: it
aborts the walk at that file, every file processed before it has already
been written (and notified) exactly as in a run over the prefix alone, and
no file after it is touched; there is no retry. -/
theorem C8_abort_on_error (pre : List Entry) (p msg : String) (rest : List Entry)
    (h : ∀ e ∈ pre, ∃ q c, e = Entry.ok q c) :
    runWalk (pre ++ Entry.err p msg :: rest) =
      ((runWalk pre).1, (runWalk pre).2.1, some msg) := by
  induction pre with
  | nil => rfl
  | cons e pre ih =>
    obtain ⟨q, cc, rfl⟩ := h e (List.mem_cons_self _ _)
    simp only [List.cons_append, runWalk, List.append_eq]
    rw [ih (fun e' he' => h e' (List.mem_cons_of_mem _ he'))]

theorem C8_witness :
    runWalk ([Entry.ok "a.rs" "use crate::app::A;"] ++
        Entry.err "b.rs" "PermissionError" :: [Entry.ok "c.rs" "use crate::theme::T;"]) =
      ((runWalk [Entry.ok "a.rs" "use crate::app::A;"]).1,
        (runWalk [Entry.ok "a.rs" "use crate::app::A;"]).2.1, some "PermissionError") :=
  C8_abort_on_error [Entry.ok "a.rs" "use crate::app::A;"] "b.rs" "PermissionError"
    [Entry.ok "c.rs" "use crate::theme::T;"]
    (by
      intro e he
      rw [List.mem_singleton] at he
      exact ⟨"a.rs", "use crate::app::A;", he⟩)

/-- C9: determinism — the result of processing a file is a function of the
file's content and the fixed table alone: equal contents give equal
results, and the transformed content and write decision do not depend on
the file path. -/
theorem C9_deterministic (fp fp' c₁ c₂ : String) (h : c₁ = c₂) :
    process_file fp c₁ = process_file fp c₂ ∧
    (process_file fp c₁).newContent = (process_file fp' c₂).newContent ∧
    (process_file fp c₁).wrote = (process_file fp' c₂).wrote := by
  subst h
  refine ⟨rfl, ?_, ?_⟩ <;>
    · by_cases hc : transform c₁ = c₁
      · rw [process_file_eq_unchanged hc, process_file_eq_unchanged hc]
      · rw [process_file_eq_changed hc, process_file_eq_changed hc]

theorem C9_witness :
    process_file "x.rs" "use crate::app::A;" = process_file "x.rs" "use crate::app::A;" ∧
    (process_file "x.rs" "use crate::app::A;").newContent =
      (process_file "y.rs" "use crate::app::A;").newContent ∧
    (process_file "x.rs" "use crate::app::A;").wrote =
      (process_file "y.rs" "use crate::app::A;").wrote :=
  C9_deterministic "x.rs" "y.rs" "use crate::app::A;" "use crate::app::A;" rfl

/-- C10: frame property of substitution — every span of the content that
is not part of a match of the pattern, at the point in the sequence where
that pattern is applied, is preserved verbatim in the pass's output. At a
pattern's leftmost match position `i`, the pass's output is literally the
match-free span `s.take i`, then the replacement, then the identically
processed remainder (so, inductively, every span between matches is
copied verbatim); the span before `i` contains no match; a pass whose
pattern matches nowhere copies the whole content; and in particular
content with no occurrence of the substring `crate::` is returned
byte-for-byte identical by the whole transform. -/
theorem C10_frame (m : String × String) (hm : m ∈ MAPPINGS)
    (s : List Char) (i : Nat) (hfind : findMatch m.1.toList s = some i)
    (s' : List Char) (hs' : hasMatch m.1.toList s' = false)
    (F : String) (hF : containsSub ("crate::".toList) F.toList = false) :
    subLit m.1.toList m.2.toList s =
      s.take i ++ m.2.toList ++
        subLit m.1.toList m.2.toList (s.drop (i + m.1.toList.length)) ∧
    (∀ j, j < i → headMatch m.1.toList (s.drop j) = false) ∧
    subLit m.1.toList m.2.toList s' = s' ∧
    transform F = F := by
  refine ⟨?_, (findMatch_some_spec s i hfind).2.2,
    subLit_of_no_match s'.length s' (le_refl _) hs',
    transform_fixed_of_no_match (no_crate_no_match hF)⟩
  rw [subLit_eq_specSub s.length s (le_refl _), specSub_some hfind,
    ← subLit_eq_specSub (s.drop (i + m.1.toList.length)).length _ (le_refl _)]

theorem C10_witness :
    subLit ("crate::app".toList) ("crate::core::app".toList) ("foo crate::app bar".toList) =
      ("foo crate::app bar".toList).take 4 ++ "crate::core::app".toList ++
        subLit ("crate::app".toList) ("crate::core::app".toList)
          (("foo crate::app bar".toList).drop (4 + ("crate::app".toList).length)) ∧
    (∀ j, j < 4 → headMatch ("crate::app".toList) (("foo crate::app bar".toList).drop j) = false) ∧
    subLit ("crate::app".toList) ("crate::core::app".toList) (" bar".toList) = " bar".toList ∧
    transform "const MAX_DEPTH: u32 = 3;\n" = "const MAX_DEPTH: u32 = 3;\n" :=
  C10_frame ("crate::app", "crate::core::app") (by decide)
    ("foo crate::app bar".toList) 4 (by decide)
    (" bar".toList) (by decide)
    "const MAX_DEPTH: u32 = 3;\n" (by decide)

end Luminara
